import Mathlib

/-!
Verification of the Barnes–Hut gravitational particle simulator
(`src/rectangle.rs`, `src/particle.rs`, `src/quadtree.rs`, `src/main.rs`).

Modelling conventions:
* `f32` values are modelled as exact field elements.  Structural claims
  (tree construction, queries, sorting, the integrator recurrence) are
  settled over `ℚ`, where every definition is executable; claims that
  involve `sqrt` (force math, norm reductions) are settled over `ℝ` with
  `Real.sqrt`.
* `Vec<f32>` fields of `ParticleSystem` are modelled as total maps
  `ℕ → α` together with the explicit `count`, matching the
  structure-of-arrays layout of the source.
* `crate::consts` is not part of the sources.  Modelled from the spec:
  the gravitational constant `G` and the softening length `SOFTENING`
  are fixed configuration parameters (spec §6); every definition that
  reads them takes them as explicit arguments.  The SIMD batch width
  `LANES` is taken to be `8`, the width written out explicitly in
  `apply_forces_simd` and `find_min_velocity_norm`.
* `QuadTree::insert` recurses on `self` after `subdivide`, so it is not
  structurally recursive (and genuinely diverges on coincident
  positions under exact arithmetic); it is modelled with an explicit
  fuel argument, `none` meaning the recursion depth exceeded the fuel.
-/

namespace Gravitation

/-- `Rectangle` from `src/rectangle.rs`: top-left corner, width, height. -/
structure Rectangle (α : Type) where
  top_left_x : α
  top_left_y : α
  w : α
  h : α
deriving DecidableEq, Repr

namespace Rectangle

variable {α : Type} [LinearOrderedField α]

/-- `Rectangle::contains_point`: half-open containment,
`x ∈ [left, left+w)` and `y ∈ [top, top+h)`. -/
def contains_point (r : Rectangle α) (p : α × α) : Prop :=
  r.top_left_x ≤ p.1 ∧ r.top_left_y ≤ p.2 ∧
    r.top_left_x + r.w > p.1 ∧ r.top_left_y + r.h > p.2

instance (r : Rectangle α) (p : α × α) : Decidable (r.contains_point p) :=
  inferInstanceAs (Decidable (_ ∧ _ ∧ _ ∧ _))

/-- `Rectangle::intersects`: separating-axis test with strict
comparisons, so edge-touching boxes count as intersecting. -/
def intersects (r rect : Rectangle α) : Prop :=
  ¬(rect.top_left_y + rect.h < r.top_left_y ∨
    rect.top_left_y > r.top_left_y + r.h ∨
    rect.top_left_x + rect.w < r.top_left_x ∨
    rect.top_left_x > r.top_left_x + r.w)

instance (r rect : Rectangle α) : Decidable (r.intersects rect) :=
  inferInstanceAs (Decidable (¬_))

/-- A point lying in both rectangles forces them to intersect
(soundness of the `query` pruning step). -/
theorem intersects_of_mem {r rect : Rectangle α} {p : α × α}
    (hr : r.contains_point p) (ha : rect.contains_point p) :
    r.intersects rect := by
  obtain ⟨hx1, hy1, hx2, hy2⟩ := hr
  obtain ⟨ax1, ay1, ax2, ay2⟩ := ha
  intro h
  rcases h with h | h | h | h <;> linarith

end Rectangle

/-- `ParticleSystem` from `src/particle.rs`: structure-of-arrays storage.
Each `Vec` is modelled as a total map from slot index to value. -/
structure ParticleSystem (α : Type) where
  pos_x : ℕ → α
  pos_y : ℕ → α
  vel_x : ℕ → α
  vel_y : ℕ → α
  net_force_x : ℕ → α
  net_force_y : ℕ → α
  mass : ℕ → α
  radius : ℕ → α
  indices : ℕ → ℕ
  count : ℕ

namespace ParticleSystem

variable {α : Type} [LinearOrderedField α]

/-- `ParticleSystem::get_position`. -/
def get_position (ps : ParticleSystem α) (idx : ℕ) : α × α :=
  (ps.pos_x idx, ps.pos_y idx)

end ParticleSystem

/-- `QuadTree` from `src/quadtree.rs`.  The source stores
`children : [Option<Box<QuadTree>>; 4]` where either all four slots are
`Some` (filled together by `subdivide`) or all four are `None`;
`is_leaf` tests `children[0].is_none()`.  The two cases are modelled as
two constructors, `leaf` (no children) and `internal` (four children,
in the order top-left, top-right, bottom-left, bottom-right). -/
inductive QuadTree (α : Type) where
  | leaf (bounds : Rectangle α) (particle_idx : Option ℕ)
      (mass : α) (center_of_mass : α × α)
  | internal (bounds : Rectangle α) (c0 c1 c2 c3 : QuadTree α)
      (particle_idx : Option ℕ) (mass : α) (center_of_mass : α × α)

namespace QuadTree

variable {α : Type} [LinearOrderedField α]

/-- The `bounds` field of a node. -/
def bounds : QuadTree α → Rectangle α
  | .leaf b _ _ _ => b
  | .internal b _ _ _ _ _ _ _ => b

/-- The `mass` field of a node. -/
def mass : QuadTree α → α
  | .leaf _ _ m _ => m
  | .internal _ _ _ _ _ _ m _ => m

/-- The `center_of_mass` field of a node. -/
def center_of_mass : QuadTree α → α × α
  | .leaf _ _ _ c => c
  | .internal _ _ _ _ _ _ _ c => c

/-- The `particle_idx` field of a node. -/
def particle_idx : QuadTree α → Option ℕ
  | .leaf _ p _ _ => p
  | .internal _ _ _ _ _ p _ _ => p

/-- `QuadTree::new`: an empty leaf whose center-of-mass starts at the
geometric center of its box. -/
def new (b : Rectangle α) : QuadTree α :=
  .leaf b none 0 (b.top_left_x + b.w * (1/2 : α), b.top_left_y + b.h * (1/2 : α))

/-- Quadrant `i` of a box, as laid out by `QuadTree::subdivide`
(`0`: top-left, `1`: top-right, `2`: bottom-left, `3`: bottom-right). -/
def quadrant (b : Rectangle α) : Fin 4 → Rectangle α
  | 0 => ⟨b.top_left_x, b.top_left_y, b.w * (1/2 : α), b.h * (1/2 : α)⟩
  | 1 => ⟨b.top_left_x + b.w * (1/2 : α), b.top_left_y, b.w * (1/2 : α), b.h * (1/2 : α)⟩
  | 2 => ⟨b.top_left_x, b.top_left_y + b.h * (1/2 : α), b.w * (1/2 : α), b.h * (1/2 : α)⟩
  | 3 => ⟨b.top_left_x + b.w * (1/2 : α), b.top_left_y + b.h * (1/2 : α),
          b.w * (1/2 : α), b.h * (1/2 : α)⟩

/-- `QuadTree::subdivide`: replace the children slots with four fresh
empty quadrant nodes, keeping every other field of the node. -/
def subdivide (b : Rectangle α) (pi : Option ℕ) (m : α) (com : α × α) : QuadTree α :=
  .internal b (new (quadrant b 0)) (new (quadrant b 1))
    (new (quadrant b 2)) (new (quadrant b 3)) pi m com

/-- The final mass / center-of-mass update at the end of
`QuadTree::insert` (`new_mass > 0.0` guard included). -/
def update_mass_com (t : QuadTree α) (mIdx : α) (pos : α × α) : QuadTree α :=
  let newMass := t.mass + mIdx
  if 0 < newMass then
    let com := t.center_of_mass
    let newCom := ((com.1 * t.mass + pos.1 * mIdx) / newMass,
                   (com.2 * t.mass + pos.2 * mIdx) / newMass)
    match t with
    | .leaf b p _ _ => .leaf b p newMass newCom
    | .internal b c0 c1 c2 c3 p _ _ => .internal b c0 c1 c2 c3 p newMass newCom
  else t

/-- The `for child_opt in &mut self.children` loop of `QuadTree::insert`:
recurse (via `ins`) into the first child whose box contains `pos`; if no
child contains the point the node is returned unchanged. -/
def place_in_child (ins : QuadTree α → Option (QuadTree α))
    (t : QuadTree α) (pos : α × α) : Option (QuadTree α) :=
  match t with
  | .leaf b p m c => some (.leaf b p m c)
  | .internal b c0 c1 c2 c3 p m com =>
    if c0.bounds.contains_point pos then
      (ins c0).map fun c0' => .internal b c0' c1 c2 c3 p m com
    else if c1.bounds.contains_point pos then
      (ins c1).map fun c1' => .internal b c0 c1' c2 c3 p m com
    else if c2.bounds.contains_point pos then
      (ins c2).map fun c2' => .internal b c0 c1 c2' c3 p m com
    else if c3.bounds.contains_point pos then
      (ins c3).map fun c3' => .internal b c0 c1 c2 c3' p m com
    else some (.internal b c0 c1 c2 c3 p m com)

/-- `QuadTree::insert`, with an explicit fuel bounding the recursion
depth (`none` = the source recursion would exceed this depth).  The
occupied-leaf case takes the stored index out, subdivides, re-inserts
the old particle by recursing on the subdivided node itself, and then
falls through to the child-insertion loop and the incremental
mass / center-of-mass update, exactly as in the source. -/
def insert : ℕ → QuadTree α → ParticleSystem α → ℕ → Option (QuadTree α)
  | 0, _, _, _ => none
  | fuel + 1, t, ps, idx =>
    let pos := ps.get_position idx
    if ¬ t.bounds.contains_point pos then some t
    else
      match t with
      | .leaf b none _ _ =>
          some (.leaf b (some idx) (ps.mass idx) pos)
      | .leaf b (some old) m com =>
          (insert fuel (subdivide b none m com) ps old).bind fun t1 =>
          (place_in_child (fun c => insert fuel c ps idx) t1 pos).map fun t2 =>
          update_mass_com t2 (ps.mass idx) pos
      | .internal b c0 c1 c2 c3 p m com =>
          (place_in_child (fun c => insert fuel c ps idx)
              (.internal b c0 c1 c2 c3 p m com) pos).map fun t2 =>
          update_mass_com t2 (ps.mass idx) pos

/-- Insert a list of slots left to right (a run of `tree.insert(...)`
calls as done by `create_quadtree` in `src/utils.rs`). -/
def insert_all (fuel : ℕ) : QuadTree α → ParticleSystem α → List ℕ →
    Option (QuadTree α)
  | t, _, [] => some t
  | t, ps, i :: rest => (insert fuel t ps i).bind fun t' => insert_all fuel t' ps rest

/-- All particle indices stored in a subtree (every node's
`particle_idx`, in preorder). -/
def stored : QuadTree α → List ℕ
  | .leaf _ p _ _ => p.toList
  | .internal _ c0 c1 c2 c3 p _ _ =>
      p.toList ++ c0.stored ++ c1.stored ++ c2.stored ++ c3.stored

/-- The `if let Some(idx) = self.particle_idx` step of `query_recursive`:
report the node's stored particle if its position lies in the area. -/
def query_hit (area : Rectangle α) (ps : ParticleSystem α) : Option ℕ → List ℕ
  | some i => if area.contains_point (ps.get_position i) then [i] else []
  | none => []

/-- `QuadTree::query` / `query_recursive`: prune subtrees whose box
does not intersect the area, report the node's stored particle if its
position lies in the area, and recurse into the children. -/
def query : QuadTree α → Rectangle α → ParticleSystem α → List ℕ
  | .leaf b p _ _, area, ps =>
      if ¬ b.intersects area then [] else query_hit area ps p
  | .internal b c0 c1 c2 c3 p _ _, area, ps =>
      if ¬ b.intersects area then []
      else query_hit area ps p ++
        (c0.query area ps ++ c1.query area ps ++ c2.query area ps ++ c3.query area ps)

/-- `QuadTree::is_leaf` (`children[0].is_none()`). -/
def is_leaf : QuadTree α → Bool
  | .leaf _ _ _ _ => true
  | .internal _ _ _ _ _ _ _ _ => false

/-- Well-formedness of a tree produced by repeated insertion: every
particle stored in a subtree lies inside that subtree's box, and the
children of an internal node carve its box into the four quadrants. -/
def Inv (ps : ParticleSystem α) : QuadTree α → Prop
  | .leaf b p _ _ => ∀ i ∈ p.toList, b.contains_point (ps.get_position i)
  | .internal b c0 c1 c2 c3 p _ _ =>
      (∀ i ∈ p.toList ++ c0.stored ++ c1.stored ++ c2.stored ++ c3.stored,
          b.contains_point (ps.get_position i)) ∧
      c0.bounds = quadrant b 0 ∧ c1.bounds = quadrant b 1 ∧
      c2.bounds = quadrant b 2 ∧ c3.bounds = quadrant b 3 ∧
      Inv ps c0 ∧ Inv ps c1 ∧ Inv ps c2 ∧ Inv ps c3

theorem Inv_stored {ps : ParticleSystem α} {t : QuadTree α} (h : Inv ps t) :
    ∀ i ∈ t.stored, t.bounds.contains_point (ps.get_position i) := by
  cases t with
  | leaf b p m c => exact h
  | internal b c0 c1 c2 c3 p m c => exact h.1

/-- A point of a box lies in at least one of its four quadrants
(exact-arithmetic coverage; needed because the insertion loop silently
drops a particle no child box contains). -/
theorem quadrant_cover {b : Rectangle α} {p : α × α} (h : b.contains_point p) :
    (quadrant b 0).contains_point p ∨ (quadrant b 1).contains_point p ∨
    (quadrant b 2).contains_point p ∨ (quadrant b 3).contains_point p := by
  obtain ⟨hx1, hy1, hx2, hy2⟩ := h
  simp only [quadrant, Rectangle.contains_point, gt_iff_lt]
  by_cases hx : p.1 < b.top_left_x + b.w * (1/2 : α) <;>
    by_cases hy : p.2 < b.top_left_y + b.h * (1/2 : α)
  · exact Or.inl ⟨hx1, hy1, hx, hy⟩
  · exact Or.inr (Or.inr (Or.inl ⟨hx1, not_lt.mp hy, hx, by linarith⟩))
  · exact Or.inr (Or.inl ⟨not_lt.mp hx, hy1, by linarith, hy⟩)
  · exact Or.inr (Or.inr (Or.inr ⟨not_lt.mp hx, not_lt.mp hy, by linarith, by linarith⟩))

@[simp] theorem bounds_update_mass_com (t : QuadTree α) (m : α) (p : α × α) :
    (t.update_mass_com m p).bounds = t.bounds := by
  cases t <;> simp only [update_mass_com] <;> split <;> rfl

@[simp] theorem stored_update_mass_com (t : QuadTree α) (m : α) (p : α × α) :
    (t.update_mass_com m p).stored = t.stored := by
  cases t <;> simp only [update_mass_com] <;> split <;> rfl

@[simp] theorem is_leaf_update_mass_com (t : QuadTree α) (m : α) (p : α × α) :
    (t.update_mass_com m p).is_leaf = t.is_leaf := by
  cases t <;> simp only [update_mass_com] <;> split <;> rfl

theorem Inv_update_mass_com {ps : ParticleSystem α} {t : QuadTree α}
    (h : Inv ps t) (m : α) (p : α × α) : Inv ps (t.update_mass_com m p) := by
  cases t <;> simp only [update_mass_com] <;> split <;> exact h

@[simp] theorem bounds_new (b : Rectangle α) : (new b).bounds = b := rfl

@[simp] theorem stored_new (b : Rectangle α) : (new b).stored = [] := rfl

theorem Inv_new (ps : ParticleSystem α) (b : Rectangle α) : Inv ps (new b) := by
  intro i hi
  simp at hi

theorem Inv_subdivide {ps : ParticleSystem α} (b : Rectangle α) (m : α) (com : α × α) :
    Inv ps (subdivide b none m com) :=
  ⟨by intro i hi; simp [stored] at hi, rfl, rfl, rfl, rfl,
   Inv_new ps _, Inv_new ps _, Inv_new ps _, Inv_new ps _⟩

@[simp] theorem stored_subdivide (b : Rectangle α) (pi : Option ℕ) (m : α) (com : α × α) :
    (subdivide b pi m com).stored = pi.toList := by
  simp [subdivide, stored]

/-- Behaviour of the child-insertion loop on a well-formed internal
node, given the behaviour of the recursive call `ins`. -/
theorem place_in_child_spec {ps : ParticleSystem α} {idx : ℕ}
    {ins : QuadTree α → Option (QuadTree α)}
    (hins : ∀ c c', ins c = some c' → Inv ps c →
      c'.bounds = c.bounds ∧ Inv ps c' ∧
      (c.bounds.contains_point (ps.get_position idx) →
        ∀ j, j ∈ c'.stored ↔ j = idx ∨ j ∈ c.stored))
    {t t2 : QuadTree α}
    (h : place_in_child ins t (ps.get_position idx) = some t2)
    (hInv : Inv ps t) (hcont : t.bounds.contains_point (ps.get_position idx))
    (hleaf : t.is_leaf = false) :
    t2.bounds = t.bounds ∧ Inv ps t2 ∧ t2.is_leaf = false ∧
      ∀ j, j ∈ t2.stored ↔ j = idx ∨ j ∈ t.stored := by
  cases t with
  | leaf b p m com => simp [is_leaf] at hleaf
  | internal b c0 c1 c2 c3 p m com =>
    obtain ⟨hall, hb0, hb1, hb2, hb3, hI0, hI1, hI2, hI3⟩ := hInv
    have hallP : ∀ i, i ∈ p.toList ∨ i ∈ c0.stored ∨ i ∈ c1.stored ∨
        i ∈ c2.stored ∨ i ∈ c3.stored →
        b.contains_point (ps.get_position i) := by
      intro i hi
      exact hall i (by simp only [List.mem_append]; tauto)
    have hcont' : b.contains_point (ps.get_position idx) := hcont
    simp only [place_in_child] at h
    by_cases h0 : c0.bounds.contains_point (ps.get_position idx)
    · rw [if_pos h0, Option.map_eq_some'] at h
      obtain ⟨c0', hc0, rfl⟩ := h
      obtain ⟨hB, hI, hmem⟩ := hins c0 c0' hc0 hI0
      have hmem' := hmem h0
      refine ⟨rfl, ⟨?_, hB.trans hb0, hb1, hb2, hb3, hI, hI1, hI2, hI3⟩, rfl, ?_⟩
      · intro i hi
        by_cases hidx : i = idx
        · subst hidx; exact hcont'
        · apply hallP i
          simp only [List.mem_append, hmem', hidx, false_or] at hi
          tauto
      · intro j
        simp only [stored, List.mem_append, hmem' j]
        tauto
    · rw [if_neg h0] at h
      by_cases h1 : c1.bounds.contains_point (ps.get_position idx)
      · rw [if_pos h1, Option.map_eq_some'] at h
        obtain ⟨c1', hc1, rfl⟩ := h
        obtain ⟨hB, hI, hmem⟩ := hins c1 c1' hc1 hI1
        have hmem' := hmem h1
        refine ⟨rfl, ⟨?_, hb0, hB.trans hb1, hb2, hb3, hI0, hI, hI2, hI3⟩, rfl, ?_⟩
        · intro i hi
          by_cases hidx : i = idx
          · subst hidx; exact hcont'
          · apply hallP i
            simp only [List.mem_append, hmem', hidx, false_or] at hi
            tauto
        · intro j
          simp only [stored, List.mem_append, hmem' j]
          tauto
      · rw [if_neg h1] at h
        by_cases h2 : c2.bounds.contains_point (ps.get_position idx)
        · rw [if_pos h2, Option.map_eq_some'] at h
          obtain ⟨c2', hc2, rfl⟩ := h
          obtain ⟨hB, hI, hmem⟩ := hins c2 c2' hc2 hI2
          have hmem' := hmem h2
          refine ⟨rfl, ⟨?_, hb0, hb1, hB.trans hb2, hb3, hI0, hI1, hI, hI3⟩, rfl, ?_⟩
          · intro i hi
            by_cases hidx : i = idx
            · subst hidx; exact hcont'
            · apply hallP i
              simp only [List.mem_append, hmem', hidx, false_or] at hi
              tauto
          · intro j
            simp only [stored, List.mem_append, hmem' j]
            tauto
        · rw [if_neg h2] at h
          by_cases h3 : c3.bounds.contains_point (ps.get_position idx)
          · rw [if_pos h3, Option.map_eq_some'] at h
            obtain ⟨c3', hc3, rfl⟩ := h
            obtain ⟨hB, hI, hmem⟩ := hins c3 c3' hc3 hI3
            have hmem' := hmem h3
            refine ⟨rfl, ⟨?_, hb0, hb1, hb2, hB.trans hb3, hI0, hI1, hI2, hI⟩, rfl, ?_⟩
            · intro i hi
              by_cases hidx : i = idx
              · subst hidx; exact hcont'
              · apply hallP i
                simp only [List.mem_append, hmem', hidx, false_or] at hi
                tauto
            · intro j
              simp only [stored, List.mem_append, hmem' j]
              tauto
          · exfalso
            rcases quadrant_cover hcont' with hq | hq | hq | hq
            · exact h0 (hb0 ▸ hq)
            · exact h1 (hb1 ▸ hq)
            · exact h2 (hb2 ▸ hq)
            · exact h3 (hb3 ▸ hq)

/-- Main correctness lemma for fuelled insertion: bounds are preserved,
well-formedness is preserved, internal nodes stay internal, an in-bounds
particle is added to the stored set (and nothing else changes it), and
an out-of-bounds particle leaves the tree untouched. -/
theorem insert_spec : ∀ (fuel : ℕ) (t : QuadTree α) (ps : ParticleSystem α)
    (idx : ℕ) (t' : QuadTree α), insert fuel t ps idx = some t' → Inv ps t →
    t'.bounds = t.bounds ∧ Inv ps t' ∧
      (t.is_leaf = false → t'.is_leaf = false) ∧
      (t.bounds.contains_point (ps.get_position idx) →
        ∀ j, j ∈ t'.stored ↔ j = idx ∨ j ∈ t.stored) ∧
      (¬ t.bounds.contains_point (ps.get_position idx) → t' = t) := by
  intro fuel
  induction fuel with
  | zero => intro t ps idx t' h; simp [insert] at h
  | succ fuel IH =>
    intro t ps idx t' h hInv
    have hins : ∀ c c', insert fuel c ps idx = some c' → Inv ps c →
        c'.bounds = c.bounds ∧ Inv ps c' ∧
        (c.bounds.contains_point (ps.get_position idx) →
          ∀ j, j ∈ c'.stored ↔ j = idx ∨ j ∈ c.stored) := by
      intro c c' hcc hIc
      obtain ⟨a, b, _, d, _⟩ := IH c ps idx c' hcc hIc
      exact ⟨a, b, d⟩
    by_cases hc : t.bounds.contains_point (ps.get_position idx)
    · simp only [insert, hc, not_true_eq_false, if_false, ite_false] at h
      cases t with
      | leaf b pi m com =>
        cases pi with
        | none =>
          simp only [Option.some.injEq] at h
          subst h
          refine ⟨rfl, ?_, ?_, ?_, fun hn => absurd hc hn⟩
          · intro i hi
            simp only [Option.toList_some, List.mem_singleton] at hi
            subst hi; exact hc
          · intro hfalse; exact hfalse
          · intro _ j
            simp [stored]
        | some old =>
          rw [Option.bind_eq_some] at h
          obtain ⟨t1, h1, h2⟩ := h
          rw [Option.map_eq_some'] at h2
          obtain ⟨t2, hplace, ht'⟩ := h2
          have hold : b.contains_point (ps.get_position old) := by
            have := hInv
            exact this old (by simp)
          obtain ⟨hB1, hI1, hL1, hmem1, _⟩ :=
            IH (subdivide b none m com) ps old t1 h1 (Inv_subdivide b m com)
          have hmem1' := hmem1 hold
          have ht1b : t1.bounds = b := hB1
          have ht1leaf : t1.is_leaf = false := hL1 rfl
          obtain ⟨hB2, hI2, hL2, hmem2⟩ :=
            place_in_child_spec hins hplace hI1 (ht1b ▸ hc) ht1leaf
          subst ht'
          refine ⟨by simpa using hB2.trans ht1b, Inv_update_mass_com hI2 _ _, ?_, ?_,
            fun hn => absurd hc hn⟩
          · intro _
            simpa using hL2
          · intro _ j
            have := hmem2 j
            simp only [stored_update_mass_com]
            rw [this]
            simp only [hmem1' j, stored_subdivide, Option.toList_none,
              List.not_mem_nil, or_false, stored, Option.toList_some,
              List.mem_singleton]
            simp
      | internal b c0 c1 c2 c3 pi m com =>
        rw [Option.map_eq_some'] at h
        obtain ⟨t2, hplace, ht'⟩ := h
        obtain ⟨hB2, hI2, hL2, hmem2⟩ :=
          place_in_child_spec hins hplace hInv hc rfl
        subst ht'
        refine ⟨by simpa using hB2, Inv_update_mass_com hI2 _ _, ?_, ?_,
          fun hn => absurd hc hn⟩
        · intro _
          simpa using hL2
        · intro _ j
          simp only [stored_update_mass_com]
          exact hmem2 j
    · simp only [insert, hc, not_false_eq_true, if_true, Option.some.injEq] at h
      subst h
      exact ⟨rfl, hInv, fun hl => hl, fun hcon => absurd hcon hc, fun _ => rfl⟩

@[simp] theorem bounds_leaf (b : Rectangle α) (p : Option ℕ) (m : α) (c : α × α) :
    (QuadTree.leaf b p m c).bounds = b := rfl

@[simp] theorem bounds_internal (b : Rectangle α) (c0 c1 c2 c3 : QuadTree α)
    (p : Option ℕ) (m : α) (c : α × α) :
    (QuadTree.internal b c0 c1 c2 c3 p m c).bounds = b := rfl

@[simp] theorem stored_leaf (b : Rectangle α) (p : Option ℕ) (m : α) (c : α × α) :
    (QuadTree.leaf b p m c).stored = p.toList := rfl

@[simp] theorem stored_internal (b : Rectangle α) (c0 c1 c2 c3 : QuadTree α)
    (p : Option ℕ) (m : α) (c : α × α) :
    (QuadTree.internal b c0 c1 c2 c3 p m c).stored =
      p.toList ++ c0.stored ++ c1.stored ++ c2.stored ++ c3.stored := rfl

theorem query_of_not_intersects {ps : ParticleSystem α} {area : Rectangle α}
    {t : QuadTree α} (h : ¬ t.bounds.intersects area) : t.query area ps = [] := by
  cases t <;> (rw [query]; exact if_pos h)

theorem query_leaf_of_intersects {ps : ParticleSystem α} {area : Rectangle α}
    {b : Rectangle α} {p : Option ℕ} {m : α} {c : α × α}
    (h : b.intersects area) :
    (QuadTree.leaf b p m c).query area ps = query_hit area ps p := by
  rw [query, if_neg (not_not_intro h)]

theorem query_internal_of_intersects {ps : ParticleSystem α} {area : Rectangle α}
    {b : Rectangle α} {c0 c1 c2 c3 : QuadTree α} {p : Option ℕ} {m : α}
    {c : α × α} (h : b.intersects area) :
    (QuadTree.internal b c0 c1 c2 c3 p m c).query area ps =
      query_hit area ps p ++
      (c0.query area ps ++ c1.query area ps ++ c2.query area ps ++ c3.query area ps) := by
  rw [query, if_neg (not_not_intro h)]

theorem mem_query_hit {ps : ParticleSystem α} {area : Rectangle α}
    {p : Option ℕ} {i : ℕ} :
    i ∈ query_hit area ps p ↔
      i ∈ p.toList ∧ area.contains_point (ps.get_position i) := by
  cases p with
  | none => simp [query_hit]
  | some k =>
    by_cases hk : area.contains_point (ps.get_position k)
    · simp only [query_hit, hk, if_true, Option.toList_some, List.mem_singleton]
      constructor
      · intro hik; subst hik; exact ⟨rfl, hk⟩
      · intro h; exact h.1
    · simp only [query_hit, hk, if_false, Option.toList_some, List.mem_singleton,
        List.not_mem_nil, false_iff]
      intro h
      obtain ⟨hik, ha⟩ := h
      subst hik; exact hk ha

set_option maxHeartbeats 2000000 in
/-- `query` on a well-formed tree returns exactly the stored particles
whose position lies in the area (the pruning step loses nothing). -/
theorem query_mem {ps : ParticleSystem α} {area : Rectangle α} :
    ∀ t : QuadTree α, Inv ps t → ∀ i : ℕ,
      (i ∈ t.query area ps ↔
        i ∈ t.stored ∧ area.contains_point (ps.get_position i)) := by
  intro t
  induction t with
  | leaf b p m com =>
    intro hInv i
    by_cases hint : Rectangle.intersects b area
    · rw [query_leaf_of_intersects hint, mem_query_hit, stored_leaf]
    · rw [query_of_not_intersects (t := QuadTree.leaf b p m com) hint]
      simp only [List.not_mem_nil, false_iff]
      intro ⟨hs, ha⟩
      exact hint (Rectangle.intersects_of_mem (Inv_stored hInv i hs) ha)
  | internal b c0 c1 c2 c3 p m com ih0 ih1 ih2 ih3 =>
    intro hInv i
    obtain ⟨hall, q0, q1, q2, q3, hI0, hI1, hI2, hI3⟩ := hInv
    by_cases hint : Rectangle.intersects b area
    · have e0 := ih0 hI0 i
      have e1 := ih1 hI1 i
      have e2 := ih2 hI2 i
      have e3 := ih3 hI3 i
      rw [query_internal_of_intersects hint]
      simp only [List.mem_append, mem_query_hit, stored_internal, e0, e1, e2, e3]
      tauto
    · rw [query_of_not_intersects (t := QuadTree.internal b c0 c1 c2 c3 p m com) hint]
      simp only [List.not_mem_nil, false_iff]
      intro ⟨hs, ha⟩
      refine hint (Rectangle.intersects_of_mem (Inv_stored ?_ i hs) ha)
      exact ⟨hall, q0, q1, q2, q3, hI0, hI1, hI2, hI3⟩

/-- Folding `insert` over a list of in-bounds slots: the stored set of
the result is exactly the slot list (plus what was already there). -/
theorem insert_all_spec : ∀ (slots : List ℕ) (fuel : ℕ) (t : QuadTree α)
    (ps : ParticleSystem α) (t' : QuadTree α),
    insert_all fuel t ps slots = some t' → Inv ps t →
    (∀ i ∈ slots, t.bounds.contains_point (ps.get_position i)) →
    t'.bounds = t.bounds ∧ Inv ps t' ∧
      (∀ j, j ∈ t'.stored ↔ j ∈ slots ∨ j ∈ t.stored) := by
  intro slots
  induction slots with
  | nil =>
    intro fuel t ps t' h hInv _
    simp only [insert_all, Option.some.injEq] at h
    subst h
    exact ⟨rfl, hInv, by simp⟩
  | cons s rest IH =>
    intro fuel t ps t' h hInv hin
    simp only [insert_all] at h
    rw [Option.bind_eq_some] at h
    obtain ⟨t1, h1, h2⟩ := h
    obtain ⟨hB, hI, _, hmem, _⟩ := insert_spec fuel t ps s t1 h1 hInv
    have hmem' := hmem (hin s (by simp))
    obtain ⟨hB', hI', hmem''⟩ := IH fuel t1 ps t' h2 hI (by
      intro i hi
      rw [hB]
      exact hin i (by simp [hi]))
    refine ⟨hB'.trans hB, hI', ?_⟩
    intro j
    rw [hmem'' j]
    simp only [hmem' j, List.mem_cons]
    tauto

/-- `update_mass_com` rewrites only the mass and center-of-mass of an
internal node; its children and stored index are untouched. -/
theorem update_mass_com_internal (b : Rectangle α) (c0 c1 c2 c3 : QuadTree α)
    (p : Option ℕ) (m : α) (com : α × α) (mi : α) (pos : α × α) :
    ∃ m' com', update_mass_com (.internal b c0 c1 c2 c3 p m com) mi pos =
      .internal b c0 c1 c2 c3 p m' com' := by
  simp only [update_mass_com]
  split
  · exact ⟨_, _, rfl⟩
  · exact ⟨m, com, rfl⟩

end QuadTree

/-! ### Concrete scenarios (over `ℚ`, fully executable) -/

/-- A stand-in for the fixed world rectangle of `main.rs`
(`Rectangle::new((0,0), WORLD_WIDTH, WORLD_HEIGHT)`); the claims hold
or fail independently of the configured dimensions. -/
def worldRect : Rectangle ℚ := ⟨0, 0, 100, 100⟩

/-- Two unit-mass particles at (10,10) and (60,60), both inside
`worldRect`. -/
def twoParticleSystem : ParticleSystem ℚ where
  pos_x := fun i => if i = 0 then 10 else 60
  pos_y := fun i => if i = 0 then 10 else 60
  vel_x := fun _ => 0
  vel_y := fun _ => 0
  net_force_x := fun _ => 0
  net_force_y := fun _ => 0
  mass := fun _ => 1
  radius := fun _ => 1
  indices := fun i => i
  count := 2

/-- Two unit-mass particles, both at exactly (10,10). -/
def coincidentSystem : ParticleSystem ℚ where
  pos_x := fun _ => 10
  pos_y := fun _ => 10
  vel_x := fun _ => 0
  vel_y := fun _ => 0
  net_force_x := fun _ => 0
  net_force_y := fun _ => 0
  mass := fun _ => 1
  radius := fun _ => 1
  indices := fun i => i
  count := 2

/-- The tree the code actually builds from `twoParticleSystem`:
note the root mass `3` (not `2`) and center-of-mass `(80/3, 80/3)`
(not `(35, 35)`). -/
def twoParticleTree : QuadTree ℚ :=
  .internal worldRect
    (.leaf (QuadTree.quadrant worldRect 0) (some 0) 1 (10, 10))
    (QuadTree.new (QuadTree.quadrant worldRect 1))
    (QuadTree.new (QuadTree.quadrant worldRect 2))
    (.leaf (QuadTree.quadrant worldRect 3) (some 1) 1 (60, 60))
    none 3 (80/3, 80/3)

theorem insert_first_particle (f : ℕ) :
    QuadTree.insert (f + 1) (QuadTree.new worldRect) twoParticleSystem 0 =
      some (QuadTree.leaf worldRect (some 0) 1 (10, 10)) := by
  have hw : worldRect.contains_point (twoParticleSystem.get_position 0) := by
    norm_num [worldRect, Rectangle.contains_point, ParticleSystem.get_position,
      twoParticleSystem]
  simp only [QuadTree.new]
  rw [QuadTree.insert]
  simp only [QuadTree.bounds_leaf]
  rw [if_neg (not_not_intro hw)]
  rfl

theorem insert_second_particle (f : ℕ) :
    QuadTree.insert (f + 1 + 1 + 1)
      (QuadTree.leaf worldRect (some 0) 1 (10, 10)) twoParticleSystem 1 =
      some twoParticleTree := by
  have hpos1 : twoParticleSystem.get_position 1 = ((60 : ℚ), (60 : ℚ)) := rfl
  have hpos0 : twoParticleSystem.get_position 0 = ((10 : ℚ), (10 : ℚ)) := rfl
  have hm : ∀ j, twoParticleSystem.mass j = 1 := fun _ => rfl
  have hw1 : worldRect.contains_point ((60 : ℚ), (60 : ℚ)) := by
    norm_num [worldRect, Rectangle.contains_point]
  have hw0 : worldRect.contains_point ((10 : ℚ), (10 : ℚ)) := by
    norm_num [worldRect, Rectangle.contains_point]
  have hq0 : (QuadTree.quadrant worldRect 0).contains_point ((10 : ℚ), (10 : ℚ)) := by
    norm_num [worldRect, QuadTree.quadrant, Rectangle.contains_point]
  have hq0not : ¬ (QuadTree.quadrant worldRect 0).contains_point ((60 : ℚ), (60 : ℚ)) := by
    norm_num [worldRect, QuadTree.quadrant, Rectangle.contains_point]
  have hq1not : ¬ (QuadTree.quadrant worldRect 1).contains_point ((60 : ℚ), (60 : ℚ)) := by
    norm_num [worldRect, QuadTree.quadrant, Rectangle.contains_point]
  have hq2not : ¬ (QuadTree.quadrant worldRect 2).contains_point ((60 : ℚ), (60 : ℚ)) := by
    norm_num [worldRect, QuadTree.quadrant, Rectangle.contains_point]
  have hq3 : (QuadTree.quadrant worldRect 3).contains_point ((60 : ℚ), (60 : ℚ)) := by
    norm_num [worldRect, QuadTree.quadrant, Rectangle.contains_point]
  rw [QuadTree.insert]
  simp only [QuadTree.bounds_leaf]
  rw [hpos1, if_neg (not_not_intro hw1)]
  simp only [QuadTree.subdivide]
  rw [QuadTree.insert]
  simp only [QuadTree.bounds_internal]
  rw [hpos0, if_neg (not_not_intro hw0)]
  simp only [QuadTree.place_in_child, QuadTree.bounds_new, QuadTree.new,
    QuadTree.bounds_leaf, hq0, hq0not, hq1not, hq2not, hq3,
    if_true, if_false, ite_true, ite_false]
  rw [QuadTree.insert]
  simp only [QuadTree.bounds_leaf]
  rw [hpos0, if_neg (not_not_intro hq0)]
  simp only [Option.map_some', Option.some_bind, hm]
  norm_num [QuadTree.insert, QuadTree.place_in_child, QuadTree.update_mass_com,
    QuadTree.new, QuadTree.bounds_leaf, QuadTree.bounds_new, QuadTree.mass,
    QuadTree.center_of_mass, hpos0, hpos1, hm, hq0, hq0not, hq1not, hq2not, hq3,
    hw0, hw1, twoParticleTree, Option.map_some', Option.some_bind]

/-- C1: the spec demands that after inserting the two in-bounds
particles of `twoParticleSystem` (masses `1` and `1`) the root
aggregate mass be `1 + 1 = 2` and the root center-of-mass be the
mass-weighted average `(35, 35)`; the code instead produces mass `3`
and center-of-mass `(80/3, 80/3)`, because the occupied-leaf case of
`QuadTree::insert` re-inserts the already-counted resident particle
through `self.insert`, which runs the incremental mass/center-of-mass
update for that particle a second time at the same node. -/
theorem C1_root_aggregate_mass_bug :
    ((QuadTree.insert_all 10 (QuadTree.new worldRect) twoParticleSystem [0, 1]).map
        QuadTree.mass = some 3) ∧
    twoParticleSystem.mass 0 + twoParticleSystem.mass 1 = 2 ∧
    ((QuadTree.insert_all 10 (QuadTree.new worldRect) twoParticleSystem [0, 1]).map
        QuadTree.center_of_mass = some (80/3, 80/3)) ∧
    (twoParticleSystem.mass 0 * twoParticleSystem.pos_x 0 +
        twoParticleSystem.mass 1 * twoParticleSystem.pos_x 1) /
      (twoParticleSystem.mass 0 + twoParticleSystem.mass 1) = 35 ∧
    (3 : ℚ) ≠ 2 ∧ (80 / 3 : ℚ) ≠ 35 := by
  have hbuild : QuadTree.insert_all 10 (QuadTree.new worldRect) twoParticleSystem [0, 1]
      = some twoParticleTree := by
    rw [show (10 : ℕ) = 7 + 1 + 1 + 1 from rfl]
    simp only [QuadTree.insert_all, insert_first_particle (7 + 1 + 1),
      Option.some_bind, insert_second_particle 7]
  rw [hbuild]
  refine ⟨rfl, by norm_num [twoParticleSystem], rfl,
    by norm_num [twoParticleSystem], by norm_num, by norm_num⟩

namespace QuadTree

/-- Inserting a particle at (10,10) into an occupied leaf whose box
contains (10,10) exhausts every fuel bound when the resident particle
also sits at (10,10): each subdivision places both particles in the
same quadrant and recurses into the same situation one level down. -/
theorem insert_coincident_none :
    ∀ (fuel : ℕ) (b : Rectangle ℚ) (old : ℕ) (m : ℚ) (com : ℚ × ℚ) (idx : ℕ),
      b.contains_point ((10 : ℚ), (10 : ℚ)) →
      insert fuel (QuadTree.leaf b (some old) m com) coincidentSystem idx = none := by
  intro fuel
  induction fuel with
  | zero => intro b old m com idx _; rfl
  | succ fuel IH =>
    intro b old m com idx h
    have hpos : ∀ j : ℕ, coincidentSystem.get_position j = ((10 : ℚ), (10 : ℚ)) :=
      fun _ => rfl
    rw [insert]
    simp only [hpos, bounds_leaf]
    rw [if_neg (not_not_intro h)]
    cases fuel with
    | zero => rfl
    | succ g =>
      simp only [subdivide]
      rw [insert]
      simp only [hpos, bounds_internal]
      rw [if_neg (not_not_intro h)]
      by_cases h0 : (quadrant b 0).contains_point ((10 : ℚ), (10 : ℚ))
      · simp only [place_in_child, bounds_new, bounds_leaf, h0, if_true,
          Option.map_eq_map]
        cases g with
        | zero => rfl
        | succ g' =>
          simp only [new]
          rw [insert]
          simp only [hpos, bounds_leaf]
          rw [if_neg (not_not_intro h0)]
          simp only [Option.map_some', Option.some_bind]
          obtain ⟨m1, com1, hupd⟩ := update_mass_com_internal b
            (QuadTree.leaf (quadrant b 0) (some old) (coincidentSystem.mass old)
              ((10 : ℚ), (10 : ℚ)))
            (QuadTree.new (quadrant b 1)) (QuadTree.new (quadrant b 2))
            (QuadTree.new (quadrant b 3)) none m com (coincidentSystem.mass old)
            ((10 : ℚ), (10 : ℚ))
          simp only [new] at hupd
          rw [hupd]
          simp only [place_in_child, bounds_leaf, bounds_new, h0, if_true]
          rw [IH (quadrant b 0) old (coincidentSystem.mass old) ((10 : ℚ), (10 : ℚ)) idx h0]
          rfl
      · simp only [place_in_child, bounds_new, bounds_leaf, h0, if_false]
        by_cases h1 : (quadrant b 1).contains_point ((10 : ℚ), (10 : ℚ))
        · simp only [h1, if_true]
          cases g with
          | zero => rfl
          | succ g' =>
            simp only [new]
            rw [insert]
            simp only [hpos, bounds_leaf]
            rw [if_neg (not_not_intro h1)]
            simp only [Option.map_some', Option.some_bind]
            obtain ⟨m1, com1, hupd⟩ := update_mass_com_internal b
              (QuadTree.new (quadrant b 0))
              (QuadTree.leaf (quadrant b 1) (some old) (coincidentSystem.mass old)
                ((10 : ℚ), (10 : ℚ)))
              (QuadTree.new (quadrant b 2)) (QuadTree.new (quadrant b 3))
              none m com (coincidentSystem.mass old) ((10 : ℚ), (10 : ℚ))
            simp only [new] at hupd
            rw [hupd]
            simp only [place_in_child, bounds_leaf, bounds_new, h0, h1, if_true,
              if_false]
            rw [IH (quadrant b 1) old (coincidentSystem.mass old) ((10 : ℚ), (10 : ℚ)) idx h1]
            rfl
        · simp only [h1, if_false]
          by_cases h2 : (quadrant b 2).contains_point ((10 : ℚ), (10 : ℚ))
          · simp only [h2, if_true]
            cases g with
            | zero => rfl
            | succ g' =>
              simp only [new]
              rw [insert]
              simp only [hpos, bounds_leaf]
              rw [if_neg (not_not_intro h2)]
              simp only [Option.map_some', Option.some_bind]
              obtain ⟨m1, com1, hupd⟩ := update_mass_com_internal b
                (QuadTree.new (quadrant b 0)) (QuadTree.new (quadrant b 1))
                (QuadTree.leaf (quadrant b 2) (some old) (coincidentSystem.mass old)
                  ((10 : ℚ), (10 : ℚ)))
                (QuadTree.new (quadrant b 3))
                none m com (coincidentSystem.mass old) ((10 : ℚ), (10 : ℚ))
              simp only [new] at hupd
              rw [hupd]
              simp only [place_in_child, bounds_leaf, bounds_new, h0, h1, h2,
                if_true, if_false]
              rw [IH (quadrant b 2) old (coincidentSystem.mass old) ((10 : ℚ), (10 : ℚ)) idx h2]
              rfl
          · simp only [h2, if_false]
            by_cases h3 : (quadrant b 3).contains_point ((10 : ℚ), (10 : ℚ))
            · simp only [h3, if_true]
              cases g with
              | zero => rfl
              | succ g' =>
                simp only [new]
                rw [insert]
                simp only [hpos, bounds_leaf]
                rw [if_neg (not_not_intro h3)]
                simp only [Option.map_some', Option.some_bind]
                obtain ⟨m1, com1, hupd⟩ := update_mass_com_internal b
                  (QuadTree.new (quadrant b 0)) (QuadTree.new (quadrant b 1))
                  (QuadTree.new (quadrant b 2))
                  (QuadTree.leaf (quadrant b 3) (some old) (coincidentSystem.mass old)
                    ((10 : ℚ), (10 : ℚ)))
                  none m com (coincidentSystem.mass old) ((10 : ℚ), (10 : ℚ))
                simp only [new] at hupd
                rw [hupd]
                simp only [place_in_child, bounds_leaf, bounds_new, h0, h1, h2, h3,
                  if_true, if_false]
                rw [IH (quadrant b 3) old (coincidentSystem.mass old) ((10 : ℚ), (10 : ℚ)) idx h3]
                rfl
            · exfalso
              rcases quadrant_cover h with hq | hq | hq | hq
              exacts [h0 hq, h1 hq, h2 hq, h3 hq]

end QuadTree

/-- C4: `QuadTree::insert` has no depth bound: inserting the second of
two particles that sit at exactly the same in-bounds position keeps
subdividing and recursing for ever (under exact arithmetic), so the
fuelled model runs out of fuel for every fuel bound. -/
theorem C4_insert_subdivision_unbounded :
    ∀ fuel : ℕ,
      QuadTree.insert_all fuel (QuadTree.new worldRect) coincidentSystem [0, 1]
        = none := by
  intro fuel
  cases fuel with
  | zero => rfl
  | succ f =>
    have hw : worldRect.contains_point ((10 : ℚ), (10 : ℚ)) := by
      norm_num [worldRect, Rectangle.contains_point]
    have h1 : QuadTree.insert (f + 1) (QuadTree.new worldRect) coincidentSystem 0
        = some (QuadTree.leaf worldRect (some 0) (coincidentSystem.mass 0)
            ((10 : ℚ), (10 : ℚ))) := by
      simp only [QuadTree.new]
      rw [QuadTree.insert]
      simp only [QuadTree.bounds_leaf]
      rw [show coincidentSystem.get_position 0 = ((10 : ℚ), (10 : ℚ)) from rfl]
      rw [if_neg (not_not_intro hw)]
    simp only [QuadTree.insert_all, h1, Option.some_bind]
    rw [QuadTree.insert_coincident_none (f + 1) worldRect 0 _ _ 1 hw]
    rfl

/-- C6: for a tree built by inserting any list of slots whose positions
lie inside the world rectangle, `query` returns exactly the slots whose
stored position satisfies the half-open containment rule for the queried
rectangle, i.e. what a brute-force linear filter over the inserted slots
would produce. -/
theorem C6_query_matches_filter {α : Type} [LinearOrderedField α]
    (fuel : ℕ) (w : Rectangle α) (ps : ParticleSystem α)
    (slots : List ℕ) (t : QuadTree α) (area : Rectangle α) (i : ℕ)
    (hin : ∀ j ∈ slots, w.contains_point (ps.get_position j))
    (hbuild : QuadTree.insert_all fuel (QuadTree.new w) ps slots = some t) :
    i ∈ t.query area ps ↔ i ∈ slots ∧ area.contains_point (ps.get_position i) := by
  obtain ⟨hB, hI, hmem⟩ := QuadTree.insert_all_spec slots fuel (QuadTree.new w) ps t
    hbuild (QuadTree.Inv_new ps w) (by simpa using hin)
  have hs := hmem i
  simp only [QuadTree.stored_new, List.not_mem_nil, or_false] at hs
  rw [QuadTree.query_mem t hI i, hs]

theorem C6_query_matches_filter_witness :
    ∃ t : QuadTree ℚ,
      QuadTree.insert_all 10 (QuadTree.new worldRect) twoParticleSystem [0, 1]
          = some t ∧
      (0 ∈ t.query ⟨0, 0, 30, 30⟩ twoParticleSystem ↔
        0 ∈ [0, 1] ∧
          (Rectangle.mk (0 : ℚ) 0 30 30).contains_point
            (twoParticleSystem.get_position 0)) := by
  have hbuild : QuadTree.insert_all 10 (QuadTree.new worldRect) twoParticleSystem [0, 1]
      = some twoParticleTree := by
    rw [show (10 : ℕ) = 7 + 1 + 1 + 1 from rfl]
    simp only [QuadTree.insert_all, insert_first_particle (7 + 1 + 1),
      Option.some_bind, insert_second_particle 7]
  refine ⟨twoParticleTree, hbuild, ?_⟩
  refine C6_query_matches_filter 10 worldRect twoParticleSystem [0, 1]
    twoParticleTree ⟨0, 0, 30, 30⟩ 0 ?_ hbuild
  intro j hj
  fin_cases hj <;>
    norm_num [worldRect, Rectangle.contains_point, twoParticleSystem,
      ParticleSystem.get_position]


namespace ParticleSystem

variable {α : Type} [LinearOrderedField α]

/-- One iteration of the scalar remainder loop of
`ParticleSystem::apply_forces_simd`: semi-implicit Euler on a single
slot (velocity += force/mass, then position += updated velocity). -/
def integrate_slot (s : ParticleSystem α) (idx : ℕ) : ParticleSystem α :=
  let acc_x := s.net_force_x idx / s.mass idx
  let acc_y := s.net_force_y idx / s.mass idx
  let vx := s.vel_x idx + acc_x
  let vy := s.vel_y idx + acc_y
  { s with
    vel_x := fun k => if k = idx then vx else s.vel_x k
    vel_y := fun k => if k = idx then vy else s.vel_y k
    pos_x := fun k => if k = idx then s.pos_x idx + vx else s.pos_x k
    pos_y := fun k => if k = idx then s.pos_y idx + vy else s.pos_y k }

/-- One 8-lane SIMD batch of `apply_forces_simd`, starting at slot `i`:
each lane applies the identical per-slot formula (SIMD lane arithmetic
is elementwise), and the computed lanes are stored back over slots
`i .. i+7`. -/
def apply_chunk (s : ParticleSystem α) (i : ℕ) : ParticleSystem α :=
  let vx := fun k => s.vel_x k + s.net_force_x k / s.mass k
  let vy := fun k => s.vel_y k + s.net_force_y k / s.mass k
  let px := fun k => s.pos_x k + vx k
  let py := fun k => s.pos_y k + vy k
  { s with
    vel_x := fun k => if i ≤ k ∧ k < i + 8 then vx k else s.vel_x k
    vel_y := fun k => if i ≤ k ∧ k < i + 8 then vy k else s.vel_y k
    pos_x := fun k => if i ≤ k ∧ k < i + 8 then px k else s.pos_x k
    pos_y := fun k => if i ≤ k ∧ k < i + 8 then py k else s.pos_y k }

/-- `ParticleSystem::apply_forces_simd`: full 8-wide batches
(`while i + LANES <= count`, i.e. chunk starts `8*c` for
`c < count / 8`) followed by the scalar remainder loop. -/
def apply_forces_simd (s : ParticleSystem α) : ParticleSystem α :=
  let nchunks := s.count / 8
  let s1 := (List.range nchunks).foldl (fun acc c => acc.apply_chunk (8 * c)) s
  (List.range' (8 * nchunks) (s.count - 8 * nchunks)).foldl integrate_slot s1

/-- The spec's description of the integrator (§4.3), written from the
spec's words as the reference for the batched/remainder refinement:
every slot below `count` is advanced by one semi-implicit Euler step
with unit time step. -/
def integrate_all_spec (s : ParticleSystem α) : ParticleSystem α :=
  { s with
    vel_x := fun k => if k < s.count then s.vel_x k + s.net_force_x k / s.mass k
      else s.vel_x k
    vel_y := fun k => if k < s.count then s.vel_y k + s.net_force_y k / s.mass k
      else s.vel_y k
    pos_x := fun k => if k < s.count then
        s.pos_x k + (s.vel_x k + s.net_force_x k / s.mass k) else s.pos_x k
    pos_y := fun k => if k < s.count then
        s.pos_y k + (s.vel_y k + s.net_force_y k / s.mass k) else s.pos_y k }

theorem chunk_fold_eval (s : ParticleSystem α) (n : ℕ) :
    (List.range n).foldl (fun acc c => acc.apply_chunk (8 * c)) s =
      { s with
        vel_x := fun k => if k < 8 * n then s.vel_x k + s.net_force_x k / s.mass k
          else s.vel_x k
        vel_y := fun k => if k < 8 * n then s.vel_y k + s.net_force_y k / s.mass k
          else s.vel_y k
        pos_x := fun k => if k < 8 * n then
            s.pos_x k + (s.vel_x k + s.net_force_x k / s.mass k) else s.pos_x k
        pos_y := fun k => if k < 8 * n then
            s.pos_y k + (s.vel_y k + s.net_force_y k / s.mass k) else s.pos_y k } := by
  induction n with
  | zero =>
    simp only [List.range_zero, List.foldl_nil, Nat.mul_zero, Nat.not_lt_zero,
      if_false]
  | succ n IH =>
    rw [List.range_succ, List.foldl_append, List.foldl_cons, List.foldl_nil, IH]
    cases s
    simp only [apply_chunk, mk.injEq, and_true, true_and]
    refine ⟨?_, ?_, ?_, ?_⟩ <;> funext k <;> by_cases h1 : k < 8 * n
    all_goals first
      | simp [h1, (show ¬(8 * n ≤ k ∧ k < 8 * n + 8) by omega),
          (show k < 8 * (n + 1) by omega)]
      | (by_cases h2 : k < 8 * n + 8
         · simp [h1, (show 8 * n ≤ k ∧ k < 8 * n + 8 from ⟨by omega, h2⟩),
             (show k < 8 * (n + 1) by omega)]
         · simp [h1, (show ¬(8 * n ≤ k ∧ k < 8 * n + 8) by omega),
             (show ¬ k < 8 * (n + 1) by omega)])

theorem rem_fold_eval (len : ℕ) : ∀ (start : ℕ) (s : ParticleSystem α),
    (List.range' start len).foldl integrate_slot s =
      { s with
        vel_x := fun k => if start ≤ k ∧ k < start + len then
            s.vel_x k + s.net_force_x k / s.mass k else s.vel_x k
        vel_y := fun k => if start ≤ k ∧ k < start + len then
            s.vel_y k + s.net_force_y k / s.mass k else s.vel_y k
        pos_x := fun k => if start ≤ k ∧ k < start + len then
            s.pos_x k + (s.vel_x k + s.net_force_x k / s.mass k) else s.pos_x k
        pos_y := fun k => if start ≤ k ∧ k < start + len then
            s.pos_y k + (s.vel_y k + s.net_force_y k / s.mass k) else s.pos_y k } := by
  induction len with
  | zero =>
    intro start s
    cases s
    simp only [List.range', List.foldl_nil, mk.injEq, and_true, true_and]
    refine ⟨?_, ?_, ?_, ?_⟩ <;> funext k <;>
      rw [if_neg (by omega)]
  | succ len IH =>
    intro start s
    rw [show List.range' start (len + 1) = start :: List.range' (start + 1) len
        from rfl,
      List.foldl_cons, IH (start + 1)]
    cases s
    simp only [integrate_slot, mk.injEq, and_true, true_and]
    refine ⟨?_, ?_, ?_, ?_⟩ <;> funext k <;> by_cases h1 : k = start
    all_goals first
      | (subst h1
         simp [(show ¬(k + 1 ≤ k ∧ k < k + 1 + len) by omega),
           (show k < k + (len + 1) by omega)])
      | (by_cases h2 : start + 1 ≤ k ∧ k < start + 1 + len
         · simp [h1, h2, (show start ≤ k ∧ k < start + (len + 1) from
             ⟨by omega, by omega⟩)]
         · simp [h1, h2, (show ¬(start ≤ k ∧ k < start + (len + 1)) by omega)])

/-- The chunked SIMD loop plus scalar remainder apply the identical
per-slot semi-implicit Euler formula to every slot below `count`. -/
theorem apply_forces_simd_eq_spec (s : ParticleSystem α) :
    apply_forces_simd s = integrate_all_spec s := by
  rw [apply_forces_simd]
  rw [chunk_fold_eval, rem_fold_eval]
  cases s with
  | mk px py vx vy fx fy m r ind c =>
    simp only [integrate_all_spec, mk.injEq, and_true, true_and]
    refine ⟨?_, ?_, ?_, ?_⟩ <;> funext k <;> by_cases h1 : k < 8 * (c / 8)
    all_goals first
      | simp [h1,
          (show ¬(8 * (c / 8) ≤ k ∧ k < 8 * (c / 8) + (c - 8 * (c / 8))) by omega),
          (show k < c by omega)]
      | (by_cases h2 : 8 * (c / 8) ≤ k ∧ k < 8 * (c / 8) + (c - 8 * (c / 8))
         · simp [h1, h2, (show k < c by omega)]
         · simp [h1, h2, (show ¬ k < c by omega)])


end ParticleSystem

/-- A single particle of mass `2`, at rest at the origin. -/
def c5Init : ParticleSystem ℚ where
  pos_x := fun _ => 0
  pos_y := fun _ => 0
  vel_x := fun _ => 0
  vel_y := fun _ => 0
  net_force_x := fun _ => 0
  net_force_y := fun _ => 0
  mass := fun _ => 2
  radius := fun _ => 1
  indices := fun i => i
  count := 1

/-- One driver step for the integrator recurrence: re-apply the constant
net force `(10, 0)` and run the integrator once. -/
def c5Step (s : ParticleSystem ℚ) : ParticleSystem ℚ :=
  ParticleSystem.apply_forces_simd
    { s with net_force_x := fun _ => 10, net_force_y := fun _ => 0 }

/-- C5: the batched and scalar-remainder paths of `apply_forces_simd`
both advance every slot by the same semi-implicit Euler step
(velocity += force/mass, then position += updated velocity), and for a
single particle of mass 2 under constant net force (10, 0) starting at
rest, step k yields velocity (5k, 0) and position (5·k·(k+1)/2, 0) for
k = 1..5, in particular velocity (25, 0) and position (75, 0) at k = 5. -/
theorem C5_semi_implicit_euler :
    (∀ (s : ParticleSystem ℚ), s.apply_forces_simd = s.integrate_all_spec) ∧
    (∀ (s : ParticleSystem ℝ), s.apply_forces_simd = s.integrate_all_spec) ∧
    (let s1 := c5Step c5Init
     let s2 := c5Step s1
     let s3 := c5Step s2
     let s4 := c5Step s3
     let s5 := c5Step s4
     (s1.vel_x 0 = 5 ∧ s1.vel_y 0 = 0 ∧ s1.pos_x 0 = 5 ∧ s1.pos_y 0 = 0) ∧
     (s2.vel_x 0 = 10 ∧ s2.vel_y 0 = 0 ∧ s2.pos_x 0 = 15 ∧ s2.pos_y 0 = 0) ∧
     (s3.vel_x 0 = 15 ∧ s3.vel_y 0 = 0 ∧ s3.pos_x 0 = 30 ∧ s3.pos_y 0 = 0) ∧
     (s4.vel_x 0 = 20 ∧ s4.vel_y 0 = 0 ∧ s4.pos_x 0 = 50 ∧ s4.pos_y 0 = 0) ∧
     (s5.vel_x 0 = 25 ∧ s5.vel_y 0 = 0 ∧ s5.pos_x 0 = 75 ∧ s5.pos_y 0 = 0)) := by
  refine ⟨fun s => s.apply_forces_simd_eq_spec, fun s => s.apply_forces_simd_eq_spec, ?_⟩
  norm_num [c5Step, ParticleSystem.apply_forces_simd_eq_spec,
    ParticleSystem.integrate_all_spec, c5Init]


/-! ### Force mathematics over `ℝ`

`f32` arithmetic in the force path is modelled over `ℝ` with
`Real.sqrt`; the gravitational constant `G` and the softening length
`SOFTENING` (`crate::consts`, not under `src/`) are explicit
arguments. -/

/-- Euclidean norm of a 2-vector (`nalgebra`'s `Vector2` norm). -/
noncomputable def norm2 (v : ℝ × ℝ) : ℝ := Real.sqrt (v.1 * v.1 + v.2 * v.2)

namespace ParticleSystem

/-- `ParticleSystem::get_attraction_force`: softened magnitude
`G·m₁·m₂ / r²` with `r = sqrt(dx²+dy²+ε²)`, direction `(dx,dy)`
normalized by the unsoftened Euclidean norm. -/
noncomputable def get_attraction_force (G eps : ℝ) (ps : ParticleSystem ℝ)
    (idx1 idx2 : ℕ) : ℝ × ℝ :=
  let dx := ps.pos_x idx2 - ps.pos_x idx1
  let dy := ps.pos_y idx2 - ps.pos_y idx1
  let distance_squared := dx * dx + dy * dy
  let r := Real.sqrt (distance_squared + eps ^ 2)
  let norm := Real.sqrt (dx * dx + dy * dy)
  let dir_x := dx / norm
  let dir_y := dy / norm
  let magnitude := G * (ps.mass idx1 * ps.mass idx2 / r ^ 2)
  (dir_x * magnitude, dir_y * magnitude)

end ParticleSystem

namespace QuadTree

/-- `QuadTree::calculate_force`: Barnes–Hut traversal for one particle.
The source accumulates into the particle's net-force slot through
`add_to_net_force`; since that is the only mutation, the traversal is
modelled as returning the total accumulated force vector. -/
noncomputable def calculate_force (G eps : ℝ) :
    QuadTree ℝ → ParticleSystem ℝ → ℕ → ℝ × ℝ
  | .leaf _ p _ _, ps, idx =>
    match p with
    | some other => if other ≠ idx then ps.get_attraction_force G eps idx other
        else (0, 0)
    | none => (0, 0)
  | .internal b c0 c1 c2 c3 _ m com, ps, idx =>
    let dx := com.1 - ps.pos_x idx
    let dy := com.2 - ps.pos_y idx
    let dist := Real.sqrt (dx * dx + dy * dy + eps ^ 2)
    if b.w / dist < 1/2 then
      let inv := 1 / dist
      let magnitude := G * ps.mass idx * m / (dist * dist)
      (dx * inv * magnitude, dy * inv * magnitude)
    else
      calculate_force G eps c0 ps idx + calculate_force G eps c1 ps idx +
        calculate_force G eps c2 ps idx + calculate_force G eps c3 ps idx

end QuadTree


/-- C3: for distinct slots at different positions the pairwise force
has magnitude `G·m_i·m_j / (dx²+dy²+ε²)` (softened squared distance)
and direction `(dx,dy)` divided by the unsoftened Euclidean norm; a
leaf holding another particle contributes exactly this vector to the
traversal, and a leaf holding the querying particle itself contributes
nothing. -/
theorem C3_pairwise_attraction (G eps : ℝ) (ps : ParticleSystem ℝ) (i j : ℕ)
    (b : Rectangle ℝ) (m : ℝ) (com : ℝ × ℝ)
    (hpos : ps.get_position i ≠ ps.get_position j)
    (hG : 0 ≤ G) (hmi : 0 ≤ ps.mass i) (hmj : 0 ≤ ps.mass j) :
    ps.get_attraction_force G eps i j =
      ((ps.pos_x j - ps.pos_x i) /
          Real.sqrt ((ps.pos_x j - ps.pos_x i) * (ps.pos_x j - ps.pos_x i) +
            (ps.pos_y j - ps.pos_y i) * (ps.pos_y j - ps.pos_y i)) *
        (G * (ps.mass i * ps.mass j /
          ((ps.pos_x j - ps.pos_x i) * (ps.pos_x j - ps.pos_x i) +
           (ps.pos_y j - ps.pos_y i) * (ps.pos_y j - ps.pos_y i) + eps ^ 2))),
       (ps.pos_y j - ps.pos_y i) /
          Real.sqrt ((ps.pos_x j - ps.pos_x i) * (ps.pos_x j - ps.pos_x i) +
            (ps.pos_y j - ps.pos_y i) * (ps.pos_y j - ps.pos_y i)) *
        (G * (ps.mass i * ps.mass j /
          ((ps.pos_x j - ps.pos_x i) * (ps.pos_x j - ps.pos_x i) +
           (ps.pos_y j - ps.pos_y i) * (ps.pos_y j - ps.pos_y i) + eps ^ 2)))) ∧
    norm2 (ps.get_attraction_force G eps i j) =
      G * (ps.mass i * ps.mass j /
        ((ps.pos_x j - ps.pos_x i) * (ps.pos_x j - ps.pos_x i) +
         (ps.pos_y j - ps.pos_y i) * (ps.pos_y j - ps.pos_y i) + eps ^ 2)) ∧
    QuadTree.calculate_force G eps (QuadTree.leaf b (some j) m com) ps i =
      ps.get_attraction_force G eps i j ∧
    QuadTree.calculate_force G eps (QuadTree.leaf b (some i) m com) ps i =
      (0, 0) := by
  set dx := ps.pos_x j - ps.pos_x i with hdx
  set dy := ps.pos_y j - ps.pos_y i with hdy
  have hij : j ≠ i := by
    intro h
    exact hpos (by rw [h])
  have hdd : 0 < dx * dx + dy * dy := by
    rcases (show dx ≠ 0 ∨ dy ≠ 0 by
      by_contra hcon
      push_neg at hcon
      apply hpos
      have hx : ps.pos_x i = ps.pos_x j := by
        have := hcon.1
        rw [hdx] at this
        linarith [this]
      have hy : ps.pos_y i = ps.pos_y j := by
        have := hcon.2
        rw [hdy] at this
        linarith [this]
      simp [ParticleSystem.get_position, hx, hy]) with h | h
    · have h1 : 0 < dx * dx := mul_self_pos.mpr h
      have h2 : 0 ≤ dy * dy := mul_self_nonneg dy
      linarith
    · have h1 : 0 < dy * dy := mul_self_pos.mpr h
      have h2 : 0 ≤ dx * dx := mul_self_nonneg dx
      linarith
  have hr2 : Real.sqrt (dx * dx + dy * dy + eps ^ 2) ^ 2 =
      dx * dx + dy * dy + eps ^ 2 := Real.sq_sqrt (by positivity)
  have hFeq : ps.get_attraction_force G eps i j =
      (dx / Real.sqrt (dx * dx + dy * dy) *
         (G * (ps.mass i * ps.mass j / (dx * dx + dy * dy + eps ^ 2))),
       dy / Real.sqrt (dx * dx + dy * dy) *
         (G * (ps.mass i * ps.mass j / (dx * dx + dy * dy + eps ^ 2)))) := by
    simp only [ParticleSystem.get_attraction_force]
    rw [hr2]
  have hnrm : 0 < Real.sqrt (dx * dx + dy * dy) := Real.sqrt_pos.mpr hdd
  have hnrmsq : Real.sqrt (dx * dx + dy * dy) * Real.sqrt (dx * dx + dy * dy) =
      dx * dx + dy * dy := Real.mul_self_sqrt (le_of_lt hdd)
  have hmag : 0 ≤ G * (ps.mass i * ps.mass j / (dx * dx + dy * dy + eps ^ 2)) := by
    have : (0 : ℝ) < dx * dx + dy * dy + eps ^ 2 := by positivity
    positivity
  refine ⟨hFeq, ?_, ?_, ?_⟩
  · rw [hFeq]
    unfold norm2
    set n := Real.sqrt (dx * dx + dy * dy) with hndef
    set M := G * (ps.mass i * ps.mass j / (dx * dx + dy * dy + eps ^ 2)) with hMdef
    have hnn : n * n = dx * dx + dy * dy := hnrmsq
    have hnne : n ≠ 0 := ne_of_gt hnrm
    clear_value n M
    have key : dx / n * M * (dx / n * M) + dy / n * M * (dy / n * M) = M ^ 2 := by
      calc dx / n * M * (dx / n * M) + dy / n * M * (dy / n * M)
          = (dx * dx + dy * dy) / (n * n) * M ^ 2 := by ring
        _ = (n * n) / (n * n) * M ^ 2 := by rw [hnn]
        _ = M ^ 2 := by rw [div_self (mul_ne_zero hnne hnne), one_mul]
    rw [key, Real.sqrt_sq hmag]
  · simp only [QuadTree.calculate_force]
    rw [if_pos hij]
  · simp [QuadTree.calculate_force]

/-- Concrete instantiation of `C3_pairwise_attraction`:
`G = 1`, `ε = 1/100`, unit masses at `(0,0)` and `(3,4)`. -/
def c3System : ParticleSystem ℝ where
  pos_x := fun k => if k = 0 then 0 else 3
  pos_y := fun k => if k = 0 then 0 else 4
  vel_x := fun _ => 0
  vel_y := fun _ => 0
  net_force_x := fun _ => 0
  net_force_y := fun _ => 0
  mass := fun _ => 1
  radius := fun _ => 1
  indices := fun k => k
  count := 2

theorem C3_pairwise_attraction_witness :
    c3System.get_position 0 ≠ c3System.get_position 1 ∧
    norm2 (c3System.get_attraction_force 1 (1/100) 0 1) =
      1 * (c3System.mass 0 * c3System.mass 1 /
        ((c3System.pos_x 1 - c3System.pos_x 0) * (c3System.pos_x 1 - c3System.pos_x 0) +
         (c3System.pos_y 1 - c3System.pos_y 0) * (c3System.pos_y 1 - c3System.pos_y 0) +
         (1/100) ^ 2)) := by
  have hne : c3System.get_position 0 ≠ c3System.get_position 1 := by
    intro h
    have := congrArg Prod.fst h
    norm_num [c3System, ParticleSystem.get_position] at this
  exact ⟨hne,
    (C3_pairwise_attraction 1 (1/100) c3System 0 1 ⟨0, 0, 1, 1⟩ 0 (0, 0) hne
      (by norm_num) (by norm_num [c3System]) (by norm_num [c3System])).2.1⟩


/-- C2 (amended): for an internal node, `calculate_force` computes the
softened distance `d = sqrt(dx²+dy²+ε²)` from the particle to the
node's center-of-mass; if `w / d < 0.5` it accumulates the vector of
magnitude `G·m_i·M/d²` in the direction `(dx, dy)` normalized by the
*softened* distance `d` (unlike the leaf case, which normalizes by the
unsoftened Euclidean norm); otherwise it recurses into all four
children. -/
theorem C2_internal_node_force (G eps : ℝ) (ps : ParticleSystem ℝ) (idx : ℕ)
    (b : Rectangle ℝ) (c0 c1 c2 c3 : QuadTree ℝ) (p : Option ℕ) (m : ℝ)
    (com : ℝ × ℝ) :
    QuadTree.calculate_force G eps (.internal b c0 c1 c2 c3 p m com) ps idx =
      (let dx := com.1 - ps.pos_x idx
       let dy := com.2 - ps.pos_y idx
       let d := Real.sqrt (dx * dx + dy * dy + eps ^ 2)
       if b.w / d < 1/2 then
         (G * ps.mass idx * m / (d * d) * (dx / d),
          G * ps.mass idx * m / (d * d) * (dy / d))
       else
         QuadTree.calculate_force G eps c0 ps idx +
           QuadTree.calculate_force G eps c1 ps idx +
           QuadTree.calculate_force G eps c2 ps idx +
           QuadTree.calculate_force G eps c3 ps idx) := by
  simp only [QuadTree.calculate_force]
  by_cases hc : b.w / Real.sqrt ((com.1 - ps.pos_x idx) * (com.1 - ps.pos_x idx) +
      (com.2 - ps.pos_y idx) * (com.2 - ps.pos_y idx) + eps ^ 2) < 1/2
  · rw [if_pos hc, if_pos hc]
    rw [Prod.mk.injEq]
    exact ⟨by ring, by ring⟩
  · rw [if_neg hc, if_neg hc]

/-- A single unit-mass particle at the origin. -/
def c2System : ParticleSystem ℝ where
  pos_x := fun _ => 0
  pos_y := fun _ => 0
  vel_x := fun _ => 0
  vel_y := fun _ => 0
  net_force_x := fun _ => 0
  net_force_y := fun _ => 0
  mass := fun _ => 1
  radius := fun _ => 1
  indices := fun k => k
  count := 1

/-- An internal node with box width 1, aggregate mass 1 and
center-of-mass (3, 4): the multipole acceptance criterion fires for a
particle at the origin. -/
noncomputable def c2Tree : QuadTree ℝ :=
  .internal ⟨0, 0, 1, 1⟩
    (QuadTree.new (QuadTree.quadrant ⟨0, 0, 1, 1⟩ 0))
    (QuadTree.new (QuadTree.quadrant ⟨0, 0, 1, 1⟩ 1))
    (QuadTree.new (QuadTree.quadrant ⟨0, 0, 1, 1⟩ 2))
    (QuadTree.new (QuadTree.quadrant ⟨0, 0, 1, 1⟩ 3))
    none 1 (3, 4)

/-- C2, counterexample to the claim as stated: the accepted internal
node does *not* produce the leaf-case vector (whose direction is
normalized by the unsoftened norm `sqrt(dx²+dy²)`); the code divides by
the softened distance instead. -/
theorem C2_softened_direction_counterexample :
    QuadTree.calculate_force 1 (1/100) c2Tree c2System 0 ≠
      ((3 : ℝ) / Real.sqrt (3 * 3 + 4 * 4) *
         (1 * (c2System.mass 0 * 1 / (3 * 3 + 4 * 4 + (1/100 : ℝ) ^ 2))),
       (4 : ℝ) / Real.sqrt (3 * 3 + 4 * 4) *
         (1 * (c2System.mass 0 * 1 / (3 * 3 + 4 * 4 + (1/100 : ℝ) ^ 2)))) := by
  have hm : c2System.mass 0 = 1 := rfl
  have hx : c2System.pos_x 0 = 0 := rfl
  have hy : c2System.pos_y 0 = 0 := rfl
  obtain ⟨d, hddef⟩ : ∃ d : ℝ,
      d = Real.sqrt ((3 - (0:ℝ)) * (3 - 0) + (4 - 0) * (4 - 0) + (1/100) ^ 2) :=
    ⟨_, rfl⟩
  have harg : ((3 - (0:ℝ)) * (3 - 0) + (4 - 0) * (4 - 0) + (1/100) ^ 2)
      = 25 + 1/10000 := by norm_num
  have hdsq : d * d = 25 + 1/10000 := by
    rw [hddef, Real.mul_self_sqrt (by norm_num), harg]
  have hdpos : 0 < d := by
    rw [hddef]
    exact Real.sqrt_pos.mpr (by norm_num)
  have hd5 : (5 : ℝ) ≤ d := by
    rw [hddef, harg,
      show (5 : ℝ) = Real.sqrt 25 by
        rw [show (25 : ℝ) = 5 ^ 2 by norm_num, Real.sqrt_sq (by norm_num)]]
    exact Real.sqrt_le_sqrt (by norm_num)
  have hmac : (1 : ℝ) / d < 1/2 := by
    rw [div_lt_div_iff hdpos (by norm_num)]
    linarith
  have heval : QuadTree.calculate_force 1 (1/100) c2Tree c2System 0 =
      (3 * (1 / d) * (1 * c2System.mass 0 * 1 / (d * d)),
       4 * (1 / d) * (1 * c2System.mass 0 * 1 / (d * d))) := by
    simp only [QuadTree.calculate_force, c2Tree, hx, hy]
    rw [← hddef]
    rw [if_pos hmac]
    norm_num
  rw [heval, hm]
  intro heq
  have h1 := congrArg Prod.fst heq
  simp only at h1
  have hc : (1 : ℝ) * (1 * 1 / (3 * 3 + 4 * 4 + (1/100 : ℝ) ^ 2)) =
      1 / (25 + 1/10000) := by norm_num
  have hn : Real.sqrt (3 * 3 + 4 * 4 : ℝ) = 5 := by
    rw [show (3 * 3 + 4 * 4 : ℝ) = 5 ^ 2 by norm_num, Real.sqrt_sq (by norm_num)]
  rw [hc, hn] at h1
  have hdne : d ≠ 0 := ne_of_gt hdpos
  have h2 : 3 / d = 3 / 5 := by
    have hcne : (1 : ℝ) / (25 + 1/10000) ≠ 0 := by norm_num
    apply mul_right_cancel₀ hcne
    calc 3 / d * (1 / (25 + 1/10000))
        = 3 * (1 / d) * (1 * 1 * 1 / (d * d)) := by rw [hdsq]; ring
      _ = 3 / 5 * (1 / (25 + 1/10000)) := h1
  have hd5' : d = 5 := by
    field_simp at h2
    linarith
  rw [hd5'] at hdsq
  norm_num at hdsq


/-- A particle outside the world rectangle (`ℚ` scenario for the
insertion part of C7). -/
def c7qSystem : ParticleSystem ℚ where
  pos_x := fun _ => -10
  pos_y := fun _ => -10
  vel_x := fun _ => 0
  vel_y := fun _ => 0
  net_force_x := fun _ => 0
  net_force_y := fun _ => 0
  mass := fun _ => 1
  radius := fun _ => 1
  indices := fun k => k
  count := 1

/-- C7 (amended): a particle outside a node's box is never inserted
(the tree is returned unchanged, so it exerts no force through the
tree), and the integrator advances every slot regardless of position;
but when the per-particle traversal is invoked for it (as `main.rs`
does for every slot), a leaf holding another particle still contributes
the full pairwise force — the traversal performs no bounds check on the
querying particle, so an out-of-bounds particle does receive forces. -/
theorem C7_out_of_bounds_amended :
    (∀ {α : Type} [inst : LinearOrderedField α] (fuel : ℕ) (t : QuadTree α)
        (ps : ParticleSystem α) (idx : ℕ),
        ¬ t.bounds.contains_point (ps.get_position idx) →
        QuadTree.insert (fuel + 1) t ps idx = some t) ∧
    (∀ (G eps : ℝ) (ps : ParticleSystem ℝ) (b : Rectangle ℝ) (m : ℝ)
        (com : ℝ × ℝ) (i j : ℕ), j ≠ i →
        QuadTree.calculate_force G eps (QuadTree.leaf b (some j) m com) ps i =
          ps.get_attraction_force G eps i j) ∧
    (∀ (s : ParticleSystem ℚ) (idx : ℕ), idx < s.count →
        s.apply_forces_simd.vel_x idx =
            s.vel_x idx + s.net_force_x idx / s.mass idx ∧
        s.apply_forces_simd.pos_x idx =
            s.pos_x idx + (s.vel_x idx + s.net_force_x idx / s.mass idx)) := by
  refine ⟨?_, ?_, ?_⟩
  · intro α inst fuel t ps idx h
    cases t with
    | leaf b p m c =>
      cases p <;> (rw [QuadTree.insert]; exact if_pos h)
    | internal b c0 c1 c2 c3 p m c =>
      rw [QuadTree.insert]; exact if_pos h
  · intro G eps ps b m com i j hji
    simp only [QuadTree.calculate_force]
    rw [if_pos hji]
  · intro s idx h
    rw [s.apply_forces_simd_eq_spec]
    simp only [ParticleSystem.integrate_all_spec]
    rw [if_pos h, if_pos h]
    exact ⟨rfl, rfl⟩

theorem C7_out_of_bounds_amended_witness :
    QuadTree.insert (0 + 1) (QuadTree.new worldRect) c7qSystem 0 =
        some (QuadTree.new worldRect) ∧
    c5Init.apply_forces_simd.vel_x 0 =
        c5Init.vel_x 0 + c5Init.net_force_x 0 / c5Init.mass 0 := by
  constructor
  · exact C7_out_of_bounds_amended.1 0 (QuadTree.new worldRect) c7qSystem 0
      (by norm_num [QuadTree.new, QuadTree.bounds_leaf, worldRect,
        Rectangle.contains_point, c7qSystem, ParticleSystem.get_position])
  · exact (C7_out_of_bounds_amended.2.2 c5Init 0 (by norm_num [c5Init])).1

/-- Two particles: slot 0 outside the world rectangle at (-10,-10),
slot 1 inside at (20, 30). -/
def c7System : ParticleSystem ℝ where
  pos_x := fun k => if k = 0 then -10 else 20
  pos_y := fun k => if k = 0 then -10 else 30
  vel_x := fun _ => 0
  vel_y := fun _ => 0
  net_force_x := fun _ => 0
  net_force_y := fun _ => 0
  mass := fun _ => 1
  radius := fun _ => 1
  indices := fun k => k
  count := 2

/-- The tree after inserting only the in-bounds particle 1. -/
noncomputable def c7Tree : QuadTree ℝ :=
  .leaf ⟨0, 0, 100, 100⟩ (some 1) 1 (20, 30)

/-- C7, counterexample to the claim as stated: the out-of-bounds
particle 0 *does* receive a (nonzero) force from the tree traversal. -/
theorem C7_receives_force_counterexample :
    ¬ (Rectangle.mk (0:ℝ) 0 100 100).contains_point (c7System.get_position 0) ∧
    QuadTree.calculate_force 1 (1/100) c7Tree c7System 0 ≠ (0, 0) := by
  constructor
  · intro h
    have := h.1
    norm_num [c7System, ParticleSystem.get_position] at this
  · have hcalc : QuadTree.calculate_force 1 (1/100) c7Tree c7System 0 =
        c7System.get_attraction_force 1 (1/100) 0 1 := by
      simp only [QuadTree.calculate_force, c7Tree]
      rw [if_pos (by norm_num : (1 : ℕ) ≠ 0)]
    rw [hcalc]
    intro heq
    have h1 := congrArg Prod.fst heq
    have hx0 : c7System.pos_x 0 = -10 := rfl
    have hx1 : c7System.pos_x 1 = 20 := rfl
    have hy0 : c7System.pos_y 0 = -10 := rfl
    have hy1 : c7System.pos_y 1 = 30 := rfl
    have hm : ∀ k, c7System.mass k = 1 := fun _ => rfl
    simp only [ParticleSystem.get_attraction_force, hx0, hx1, hy0, hy1, hm] at h1
    have harg : ((20 : ℝ) - -10) * (20 - -10) + (30 - -10) * (30 - -10) = 2500 := by
      norm_num
    rw [harg] at h1
    have hn : Real.sqrt (2500 : ℝ) = 50 := by
      rw [show (2500 : ℝ) = 50 ^ 2 by norm_num, Real.sqrt_sq (by norm_num)]
    have hr2 : Real.sqrt ((2500 : ℝ) + (1/100) ^ 2) ^ 2 = 2500 + (1/100) ^ 2 :=
      Real.sq_sqrt (by norm_num)
    rw [hn, hr2] at h1
    norm_num at h1

/-! ### A partial IEEE model for the NaN claim

`f32` values are modelled as `Option ℝ`: `some x` is the finite value
`x` (exact arithmetic), `none` marks a non-finite value (NaN or ±∞).
Arithmetic propagates `none`; division by zero and square roots of
negative numbers produce `none`.  On the evaluated path of C10 the
`none` arises from the IEEE `0.0 / 0.0 = NaN` and is then propagated by
multiplication with a finite value (`NaN * x = NaN`), where this
abstraction agrees exactly with IEEE semantics. -/

/-- Addition on the partial float model. -/
def fadd : Option ℝ → Option ℝ → Option ℝ
  | some a, some b => some (a + b)
  | _, _ => none

/-- Subtraction on the partial float model. -/
def fsub : Option ℝ → Option ℝ → Option ℝ
  | some a, some b => some (a - b)
  | _, _ => none

/-- Multiplication on the partial float model. -/
def fmul : Option ℝ → Option ℝ → Option ℝ
  | some a, some b => some (a * b)
  | _, _ => none

/-- Division on the partial float model: dividing by zero is
non-finite (`0/0 = NaN`, `x/0 = ±∞`). -/
noncomputable def fdiv : Option ℝ → Option ℝ → Option ℝ
  | some a, some b => if b = 0 then none else some (a / b)
  | _, _ => none

/-- Square root on the partial float model (negative argument gives
NaN). -/
noncomputable def fsqrt : Option ℝ → Option ℝ
  | some a => if a < 0 then none else some (Real.sqrt a)
  | none => none

theorem fadd_some_some (a b : ℝ) : fadd (some a) (some b) = some (a + b) := rfl

theorem fsub_some_some (a b : ℝ) : fsub (some a) (some b) = some (a - b) := rfl

theorem fmul_some_some (a b : ℝ) : fmul (some a) (some b) = some (a * b) := rfl

theorem fmul_none_left (x : Option ℝ) : fmul none x = none := rfl

theorem fdiv_some_some (a b : ℝ) :
    fdiv (some a) (some b) = if b = 0 then none else some (a / b) := rfl

theorem fsqrt_some (a : ℝ) :
    fsqrt (some a) = if a < 0 then none else some (Real.sqrt a) := rfl

namespace ParticleSystem

/-- `ParticleSystem::get_attraction_force` with each `f32` operation
mapped onto the partial float model, used to settle the NaN claim. -/
noncomputable def get_attraction_force_fp (G eps : ℝ) (ps : ParticleSystem ℝ)
    (idx1 idx2 : ℕ) : Option ℝ × Option ℝ :=
  let dx := fsub (some (ps.pos_x idx2)) (some (ps.pos_x idx1))
  let dy := fsub (some (ps.pos_y idx2)) (some (ps.pos_y idx1))
  let distance_squared := fadd (fmul dx dx) (fmul dy dy)
  let r := fsqrt (fadd distance_squared (fmul (some eps) (some eps)))
  let norm := fsqrt (fadd (fmul dx dx) (fmul dy dy))
  let dir_x := fdiv dx norm
  let dir_y := fdiv dy norm
  let magnitude := fmul (some G)
    (fdiv (fmul (some (ps.mass idx1)) (some (ps.mass idx2))) (fmul r r))
  (fmul dir_x magnitude, fmul dir_y magnitude)

/-- The `magnitude` intermediate of `get_attraction_force_fp` on its
own (the softened magnitude `G·m₁·m₂/r²`). -/
noncomputable def attraction_magnitude_fp (G eps : ℝ) (ps : ParticleSystem ℝ)
    (idx1 idx2 : ℕ) : Option ℝ :=
  let dx := fsub (some (ps.pos_x idx2)) (some (ps.pos_x idx1))
  let dy := fsub (some (ps.pos_y idx2)) (some (ps.pos_y idx1))
  let distance_squared := fadd (fmul dx dx) (fmul dy dy)
  let r := fsqrt (fadd distance_squared (fmul (some eps) (some eps)))
  fmul (some G)
    (fdiv (fmul (some (ps.mass idx1)) (some (ps.mass idx2))) (fmul r r))

end ParticleSystem

/-- C10: for two distinct slots at exactly equal positions, the
softening keeps the magnitude `G·m₁·m₂/(ε²)` finite, but the direction
is normalized by the unsoftened norm, which is `0`, so `0/0` produces a
NaN that multiplication propagates into both components of the returned
vector (which `calculate_force` then accumulates into the querying
particle's net force). -/
theorem C10_coincident_positions_nan (G eps : ℝ) (ps : ParticleSystem ℝ)
    (i j : ℕ) (heps : eps ≠ 0) (hij : i ≠ j)
    (hpos : ps.get_position i = ps.get_position j) :
    (ps.get_attraction_force_fp G eps i j).1 = none ∧
    (ps.get_attraction_force_fp G eps i j).2 = none ∧
    ps.attraction_magnitude_fp G eps i j =
      some (G * (ps.mass i * ps.mass j / (eps * eps))) := by
  have hx : ps.pos_x j = ps.pos_x i :=
    (congrArg Prod.fst hpos).symm
  have hy : ps.pos_y j = ps.pos_y i :=
    (congrArg Prod.snd hpos).symm
  have hnn : ¬ (eps * eps < 0) := not_lt.mpr (mul_self_nonneg eps)
  have hne : eps * eps ≠ 0 := mul_ne_zero heps heps
  have hms : Real.sqrt (eps * eps) * Real.sqrt (eps * eps) = eps * eps :=
    Real.mul_self_sqrt (mul_self_nonneg eps)
  refine ⟨?_, ?_, ?_⟩ <;>
    simp [ParticleSystem.get_attraction_force_fp,
      ParticleSystem.attraction_magnitude_fp, hx, hy, sub_self,
      fadd_some_some, fsub_some_some, fmul_some_some, fmul_none_left,
      fdiv_some_some, fsqrt_some, hnn, hne, hms]

/-- Two unit-mass particles at the same position (5, 5). -/
def c10System : ParticleSystem ℝ where
  pos_x := fun _ => 5
  pos_y := fun _ => 5
  vel_x := fun _ => 0
  vel_y := fun _ => 0
  net_force_x := fun _ => 0
  net_force_y := fun _ => 0
  mass := fun _ => 1
  radius := fun _ => 1
  indices := fun k => k
  count := 2

theorem C10_coincident_positions_nan_witness :
    (c10System.get_attraction_force_fp 1 (1/100) 0 1).1 = none ∧
    (c10System.get_attraction_force_fp 1 (1/100) 0 1).2 = none ∧
    c10System.attraction_magnitude_fp 1 (1/100) 0 1 =
      some (1 * (c10System.mass 0 * c10System.mass 1 / ((1/100) * (1/100)))) := by
  exact C10_coincident_positions_nan 1 (1/100) c10System 0 1 (by norm_num)
    (by norm_num) rfl

namespace ParticleSystem

/-- `ParticleSystem::get_velocity_norm`. -/
noncomputable def get_velocity_norm (ps : ParticleSystem ℝ) (idx : ℕ) : ℝ :=
  Real.sqrt (ps.vel_x idx * ps.vel_x idx + ps.vel_y idx * ps.vel_y idx)

/-- `ParticleSystem::find_max_velocity_norm`.  The 8-lane SIMD loop
loads `net_force_x/net_force_y` (not the velocities!) and keeps a
lanewise running maximum starting from `splat(0.0)`; `reduce_max` then
maximizes over the 8 lanes, and the scalar remainder loop maximizes
`get_velocity_norm` (the velocity field) into the result.  `LANES` is
the batch width 8 (`consts.rs` is outside `src/`; both other loops in
the file write out 8 explicitly). -/
noncomputable def find_max_velocity_norm (ps : ParticleSystem ℝ) : ℝ :=
  let nchunks := ps.count / 8
  let max_chunk : ℕ → ℝ :=
    (List.range nchunks).foldl
      (fun mc c => fun l =>
        max (mc l)
          (Real.sqrt (ps.net_force_x (8 * c + l) * ps.net_force_x (8 * c + l) +
            ps.net_force_y (8 * c + l) * ps.net_force_y (8 * c + l))))
      (fun _ => 0)
  let max_vel := (List.range' 1 7).foldl (fun a l => max a (max_chunk l))
    (max_chunk 0)
  (List.range' (8 * nchunks) (ps.count - 8 * nchunks)).foldl
    (fun acc j => if ps.get_velocity_norm j > acc then ps.get_velocity_norm j
      else acc)
    max_vel

end ParticleSystem

/-- The maximum Euclidean norm of a per-particle 2-D field over the
population (the spec's description of the extremum query, §4.3), as a
reference for C9. -/
noncomputable def max_norm_over (fx fy : ℕ → ℝ) (n : ℕ) : ℝ :=
  (List.range n).foldl (fun a k => max a (Real.sqrt (fx k * fx k + fy k * fy k))) 0

/-- Nine particles: slot 0 has net force (6,8) (norm 10) and zero
velocity; slot 8 has velocity (3,4) (norm 5) and net force (100,0)
(norm 100); everything else is zero. -/
def c9System : ParticleSystem ℝ where
  pos_x := fun _ => 0
  pos_y := fun _ => 0
  vel_x := fun k => if k = 8 then 3 else 0
  vel_y := fun k => if k = 8 then 4 else 0
  net_force_x := fun k => if k = 0 then 6 else if k = 8 then 100 else 0
  net_force_y := fun k => if k = 0 then 8 else 0
  mass := fun _ => 1
  radius := fun _ => 1
  indices := fun k => k
  count := 9

/-- C9: on `c9System`, `find_max_velocity_norm` returns 10 — the force
norm of a batched slot filtered through the velocity-normed remainder —
which is the maximum norm of *no* single per-particle field: the
velocity-norm maximum is 5, the force-norm maximum is 100 and the
position-norm maximum is 0.  The SIMD loop reduces the net-force field
while the scalar remainder (and the function's name) use the velocity
field. -/
theorem C9_extremum_mixed_fields_bug :
    c9System.find_max_velocity_norm = 10 ∧
    max_norm_over c9System.vel_x c9System.vel_y c9System.count = 5 ∧
    max_norm_over c9System.net_force_x c9System.net_force_y c9System.count
      = 100 ∧
    max_norm_over c9System.pos_x c9System.pos_y c9System.count = 0 ∧
    (10 : ℝ) ≠ 5 ∧ (10 : ℝ) ≠ 100 ∧ (10 : ℝ) ≠ 0 := by
  have h10 : Real.sqrt (100 : ℝ) = 10 := by
    rw [show (100 : ℝ) = 10 ^ 2 by norm_num, Real.sqrt_sq (by norm_num)]
  have h5 : Real.sqrt (25 : ℝ) = 5 := by
    rw [show (25 : ℝ) = 5 ^ 2 by norm_num, Real.sqrt_sq (by norm_num)]
  have h100 : Real.sqrt (10000 : ℝ) = 100 := by
    rw [show (10000 : ℝ) = 100 ^ 2 by norm_num, Real.sqrt_sq (by norm_num)]
  have h0 : Real.sqrt (0 : ℝ) = 0 := Real.sqrt_zero
  have hr1 : List.range 1 = [0] := rfl
  have hr7 : List.range' 1 7 = [1, 2, 3, 4, 5, 6, 7] := rfl
  have hrem : List.range' 8 1 = [8] := rfl
  have hr9 : List.range 9 = [0, 1, 2, 3, 4, 5, 6, 7, 8] := rfl
  refine ⟨?_, ?_, ?_, ?_, by norm_num, by norm_num, by norm_num⟩
  · show c9System.find_max_velocity_norm = 10
    rw [ParticleSystem.find_max_velocity_norm]
    norm_num [c9System, hr1, hr7, hrem, ParticleSystem.get_velocity_norm,
      h10, h5, h0, List.foldl]
  · rw [max_norm_over]
    norm_num [c9System, hr9, h5, h0, List.foldl]
  · rw [max_norm_over]
    norm_num [c9System, hr9, h10, h100, h0, List.foldl]
  · rw [max_norm_over]
    norm_num [c9System, hr9, h0, List.foldl]

/-- The sort key of `sort_by_mass`: the Rust cast `mass[i] as u32`,
truncation toward zero saturating at `0` and `u32::MAX`. -/
def mass_key (q : ℚ) : ℕ := min (Int.toNat ⌊q⌋) (2 ^ 32 - 1)

namespace ParticleSystem

/-- `ParticleSystem::sort_by_mass`: stable-sort the slot indices by the
truncated mass key (`indices.sort_by_key(|&i| self.mass[i] as u32)` —
Rust's sort is stable, modelled by insertion sort) and rebuild every
parallel array in that order. -/
def sort_by_mass (s : ParticleSystem ℚ) : ParticleSystem ℚ :=
  let idxs := List.insertionSort
    (fun i j => mass_key (s.mass i) ≤ mass_key (s.mass j)) (List.range s.count)
  { pos_x := fun k => s.pos_x (idxs.getD k 0)
    pos_y := fun k => s.pos_y (idxs.getD k 0)
    vel_x := fun k => s.vel_x (idxs.getD k 0)
    vel_y := fun k => s.vel_y (idxs.getD k 0)
    net_force_x := fun k => s.net_force_x (idxs.getD k 0)
    net_force_y := fun k => s.net_force_y (idxs.getD k 0)
    mass := fun k => s.mass (idxs.getD k 0)
    radius := fun k => s.radius (idxs.getD k 0)
    indices := fun k => s.indices (idxs.getD k 0)
    count := s.count }

/-- The full record of one storage slot: identifier, position,
velocity, net force, mass, radius. -/
def slot_tuple (s : ParticleSystem ℚ) (i : ℕ) :
    ℕ × (ℚ × ℚ) × (ℚ × ℚ) × (ℚ × ℚ) × ℚ × ℚ :=
  (s.indices i, (s.pos_x i, s.pos_y i), (s.vel_x i, s.vel_y i),
   (s.net_force_x i, s.net_force_y i), s.mass i, s.radius i)

end ParticleSystem

/-- Mapping slot positions through the sorted index list reproduces the
index list itself. -/
theorem map_getD_range (l : List ℕ) (n : ℕ) (hlen : l.length = n) :
    (List.range n).map (fun k => l.getD k 0) = l := by
  subst hlen
  apply List.ext_getElem (by simp)
  intro i h1 h2
  simp only [List.getElem_map, List.getElem_range]
  exact List.getD_eq_getElem l 0 h2

/-- C8: `sort_by_mass` permutes the parallel arrays in lock-step — the
multiset of per-particle (identifier, position, velocity, force, mass,
radius) records is unchanged — and the resulting mass array is
non-decreasing under the truncated integer sort key. -/
theorem C8_sort_by_mass_permutation (s : ParticleSystem ℚ) :
    s.sort_by_mass.count = s.count ∧
    ((List.range s.sort_by_mass.count).map s.sort_by_mass.slot_tuple).Perm
      ((List.range s.count).map s.slot_tuple) ∧
    ((List.range s.sort_by_mass.count).map s.sort_by_mass.mass).Sorted
      (fun a b => mass_key a ≤ mass_key b) := by
  have hperm : (List.insertionSort
      (fun i j => mass_key (s.mass i) ≤ mass_key (s.mass j))
      (List.range s.count)).Perm (List.range s.count) :=
    List.perm_insertionSort _ _
  have hlen : (List.insertionSort
      (fun i j => mass_key (s.mass i) ≤ mass_key (s.mass j))
      (List.range s.count)).length = s.count := by
    rw [hperm.length_eq, List.length_range]
  have hmapid := map_getD_range _ _ hlen
  have hcount : s.sort_by_mass.count = s.count := rfl
  refine ⟨hcount, ?_, ?_⟩
  · have h1 : (List.range s.sort_by_mass.count).map s.sort_by_mass.slot_tuple =
        (List.insertionSort
          (fun i j => mass_key (s.mass i) ≤ mass_key (s.mass j))
          (List.range s.count)).map s.slot_tuple := by
      rw [hcount, ← hmapid, List.map_map]
      rfl
    rw [h1]
    exact hperm.map _
  · have h2 : (List.range s.sort_by_mass.count).map s.sort_by_mass.mass =
        (List.insertionSort
          (fun i j => mass_key (s.mass i) ≤ mass_key (s.mass j))
          (List.range s.count)).map s.mass := by
      rw [hcount, ← hmapid, List.map_map]
      rfl
    rw [h2]
    haveI : IsTotal ℕ (fun i j => mass_key (s.mass i) ≤ mass_key (s.mass j)) :=
      ⟨fun a b => le_total _ _⟩
    haveI : IsTrans ℕ (fun i j => mass_key (s.mass i) ≤ mass_key (s.mass j)) :=
      ⟨fun a b c hab hbc => le_trans hab hbc⟩
    have hs : (List.insertionSort
        (fun i j => mass_key (s.mass i) ≤ mass_key (s.mass j))
        (List.range s.count)).Sorted
        (fun i j => mass_key (s.mass i) ≤ mass_key (s.mass j)) :=
      List.sorted_insertionSort _ _
    exact List.Pairwise.map s.mass (fun a b h => h) hs
end Gravitation
